import Mathlib

/-!
# Verification of the prevalence posterior estimator

Shallow embedding of the `posterior` function of `src/js/prevalence.js`
(identically present in `src/unnamed/part_000`).  Arithmetic is modelled
exactly over `ℚ`: the JS engine computes with binary floating point, and
claims phrased "within floating-point tolerance" become exact equalities
here.  The jStat collaborators (the two Beta samplers, `jStat.beta.pdf`,
and the regularized incomplete beta `jStat.ibeta`) are external libraries,
so they are parameters of the model, gathered in an `Env`; properties the
spec requires of them ("must match standard statistical definitions")
appear as hypotheses where a claim needs them.

The rejection-sampling `while` loop of the source has no iteration cap and
can diverge, so the sampling stage takes a `fuel` bound and returns
`Option`; termination of the source corresponds to some fuel sufficing,
which is characterised exactly in `rejection_terminates_iff`.
-/

namespace Prevalence

/-- The inputs of one estimation (`posterior`'s destructured parameter
object).  Counts are the integers of the data model; prior shapes are
rationals.  The optional `w` weighting of `part_000` is ignored by the
core and omitted.  `N` is the Monte Carlo sample count, `M` the grid
resolution (defaults 1000 in the source). -/
structure Request where
  n : ℕ
  k : ℕ
  n_u : ℕ
  k_u : ℕ
  n_v : ℕ
  k_v : ℕ
  N : ℕ
  M : ℕ
  a_u : ℚ
  b_u : ℚ
  a_v : ℚ
  b_v : ℚ

/-- The external collaborators of the core, fixed for one call.
`draws t` is the pair of outputs of the two already-configured Beta
samplers — `jStat.beta.sample(k_u + a_u, n_u - k_u + b_u)` and
`jStat.beta.sample(k_v + a_v, n_v - k_v + b_v)` — at the `t`-th iteration
of the rejection loop (each iteration draws both `u` and `v` afresh).
`betaPdf x a b` is `jStat.beta.pdf(x, a, b)` and `ibeta x a b` is
`jStat.ibeta(x, a, b)`, the regularized incomplete beta function. -/
structure Env where
  draws : ℕ → ℚ × ℚ
  betaPdf : ℚ → ℚ → ℚ → ℚ
  ibeta : ℚ → ℚ → ℚ → ℚ

/-- The rejection loop `while (u >= v) { u = …; v = …; }` of lines 23-27:
starting from stream position `t`, return the first position whose drawn
pair satisfies `u < v`, trying at most `fuel` draws (the source has no
cap; `fuel` makes the search total, see `rejection_terminates_iff`). -/
def findAccept (e : Env) : ℕ → ℕ → Option ℕ
  | _, 0 => none
  | t, fuel + 1 =>
    if (e.draws t).1 < (e.draws t).2 then some t
    else findAccept e (t + 1) fuel

/-- The sampling stage's outer `for (i=0; i<N; i++)` loop: draw `N`
accepted stream positions, each rejection loop resuming the stream just
after the previous acceptance. -/
def drawIndices (e : Env) (fuel : ℕ) : ℕ → ℕ → Option (List ℕ)
  | 0, _ => some []
  | n + 1, t =>
    match findAccept e t fuel with
    | none => none
    | some j => (drawIndices e fuel n (j + 1)).map (fun rest => j :: rest)

/-- The `us` array: first components of the accepted draws. -/
def usOf (e : Env) (idxs : List ℕ) : List ℚ :=
  idxs.map (fun j => (e.draws j).1)

/-- The `vs` array: second components of the accepted draws. -/
def vsOf (e : Env) (idxs : List ℕ) : List ℚ :=
  idxs.map (fun j => (e.draws j).2)

/-- Lines 34-36: the per-sample Jacobian factor
`duv = (v-u)/(Bu - Bv)` with `Bu = ibeta(1-u, n-k+1, k+1)` and
`Bv = ibeta(1-v, n-k+1, k+1)` (complemented arguments, swapped shapes). -/
def duvOf (e : Env) (n k : ℕ) (u v : ℚ) : ℚ :=
  let Bu := e.ibeta (1 - u) ((n : ℚ) - (k : ℚ) + 1) ((k : ℚ) + 1)
  let Bv := e.ibeta (1 - v) ((n : ℚ) - (k : ℚ) + 1) ((k : ℚ) + 1)
  (v - u) / (Bu - Bv)

/-- The `duvs` array, one Jacobian factor per retained sample. -/
def duvsOf (e : Env) (n k : ℕ) (us vs : List ℚ) : List ℚ :=
  List.zipWith (duvOf e n k) us vs

/-- The state of one compensated (Neumaier/Kahan) accumulator: the running
sum and the running compensation term (`p_theta`/`cp` in the inner loop,
`total`/`ct` in the outer loop). -/
structure Kahan where
  s : ℚ
  c : ℚ

/-- One compensated addition, exactly as written twice in the source:
`y = x - c; t = s + y; c = (t - s) - y; s = t`. -/
def kahanAdd (a : Kahan) (x : ℚ) : Kahan :=
  let y := x - a.c
  let t := a.s + y
  ⟨t, (t - a.s) - y⟩

/-- Lines 53-54 of the inner loop: `p = u + theta*(v-u)`,
`f = jStat.beta.pdf(p, k+1, n-k+1)`, contributing `f*duv`. -/
def innerTerm (e : Env) (n k : ℕ) (theta u v duv : ℚ) : ℚ :=
  let p := u + theta * (v - u)
  let f := e.betaPdf p ((k : ℚ) + 1) ((n : ℚ) - (k : ℚ) + 1)
  f * duv

/-- The inner loop `for (i=0; i<N; i++)` at one grid value `theta`: the
compensated sum of `f*duv` over the parallel sample arrays, started from
`p_theta = 0, cp = 0`; its final running sum is pushed onto `pdf`. -/
def pTheta (e : Env) (n k : ℕ) (us vs duvs : List ℚ) (theta : ℚ) : ℚ :=
  ((List.zip us (List.zip vs duvs)).foldl
    (fun acc x => kahanAdd acc (innerTerm e n k theta x.1 x.2.1 x.2.2))
    ⟨0, 0⟩).s

/-- One iteration of the grid loop body (lines 44-68): compute `p_theta`
at `theta = j/M`, push it onto `pdf`, and fold it into the compensated
`total` accumulator. -/
def gridStep (e : Env) (n k : ℕ) (us vs duvs : List ℚ) (M : ℕ)
    (acc : List ℚ × Kahan) (j : ℕ) : List ℚ × Kahan :=
  let p_theta := pTheta e n k us vs duvs ((j : ℚ) / (M : ℚ))
  (acc.1 ++ [p_theta], kahanAdd acc.2 p_theta)

/-- The grid loop `for (j=0; j<=M; j++)`: the raw (pre-normalization)
`pdf` array together with the compensated `total` accumulator. -/
def gridPass (e : Env) (n k : ℕ) (us vs duvs : List ℚ) (M : ℕ) :
    List ℚ × Kahan :=
  (List.range (M + 1)).foldl (gridStep e n k us vs duvs M) ([], ⟨0, 0⟩)

/-- Lines 70-74: `total /= pdf.length` followed by `pdf[j] /= total` for
every grid index. -/
def normalize (pdf : List ℚ) (total : ℚ) : List ℚ :=
  let t := total / (pdf.length : ℚ)
  pdf.map (fun x => x / t)

/-- The raw (pre-normalization) grid of density values produced for the
accepted stream positions `idxs`. -/
def rawPdf (e : Env) (req : Request) (idxs : List ℕ) : List ℚ :=
  let us := usOf e idxs
  let vs := vsOf e idxs
  (gridPass e req.n req.k us vs (duvsOf e req.n req.k us vs) req.M).1

/-- The accumulated normalization total (the compensated sum of the raw
grid values), before the division by `pdf.length`. -/
def theTotal (e : Env) (req : Request) (idxs : List ℕ) : ℚ :=
  let us := usOf e idxs
  let vs := vsOf e idxs
  (gridPass e req.n req.k us vs (duvsOf e req.n req.k us vs) req.M).2.s

/-- The deterministic core of `posterior` once the rejection loops have
fixed the accepted stream positions `idxs`: build the three parallel
sample arrays, run the grid integrator, normalize. -/
def posteriorCore (e : Env) (req : Request) (idxs : List ℕ) : List ℚ :=
  normalize (rawPdf e req idxs) (theTotal e req idxs)

/-- The whole `posterior` function: the sampling stage (which diverges in
the source when a rejection loop never sees `u < v`, hence the fuel and
the `Option`) followed by the grid integrator and normalization. -/
def posterior (e : Env) (req : Request) (fuel : ℕ) : Option (List ℚ) :=
  (drawIndices e fuel req.N 0).map (posteriorCore e req)

/-- JS float semantics of the normalization step, tracking finiteness:
when the quotient `total / pdf.length` is zero, the in-place division
`pdf[j] /= total` produces a non-finite double (NaN or Infinity), marked
`none`; otherwise the finite value is the exact quotient. -/
def normalizeNaN (pdf : List ℚ) (total : ℚ) : List (Option ℚ) :=
  let t := total / (pdf.length : ℚ)
  pdf.map (fun x => if t = 0 then none else some (x / t))

/-- Guarded variant of `posterior` for the `M = 0` edge case: the source
computes `theta = j/M` unguarded, which at `M = 0` is the float division
`0/0 = NaN`; a total embedding must flag that branch, so the grid stage
returns `none` (inner `Option`) exactly when `M = 0`.  The outer `Option`
is still the sampling stage's fuel. -/
def posteriorGuard (e : Env) (req : Request) (fuel : ℕ) :
    Option (Option (List ℚ)) :=
  (drawIndices e fuel req.N 0).map
    (fun idxs => if req.M = 0 then none else some (posteriorCore e req idxs))

/-- Abbreviation for the raw density value the grid loop computes at grid
index `j` (the inner compensated sum evaluated at `theta = j/M`). -/
def gridVal (e : Env) (n k : ℕ) (us vs duvs : List ℚ) (M : ℕ) (j : ℕ) : ℚ :=
  pTheta e n k us vs duvs ((j : ℚ) / (M : ℚ))

/-- A concrete environment for evaluating the model on closed inputs: the
sampler stream constantly yields the ordered pair `(1/4, 1/2)`, the beta
pdf is the constant density `1`, and the incomplete beta is evaluated as
its first argument (which is strictly monotone and satisfies the
complement symmetry identity). -/
def testEnv : Env :=
  ⟨fun _ => (1/4, 1/2), fun _ _ _ => 1, fun x _ _ => x⟩

/-- A concrete environment whose beta pdf is identically zero, driving the
accumulated normalization total to zero. -/
def zeroEnv : Env :=
  ⟨fun _ => (1/4, 1/2), fun _ _ _ => 0, fun x _ _ => x⟩

/-- A small concrete request: `n = 5, k = 2`, validation trials
`n_u = 10, k_u = 1, n_v = 10, k_v = 9`, one Monte Carlo sample, a
two-point grid, uniform priors. -/
def testReq : Request :=
  ⟨5, 2, 10, 1, 10, 9, 1, 1, 1, 1, 1, 1⟩

/-- The same request with grid resolution `M = 0` (the degenerate
one-point grid). -/
def testReqM0 : Request :=
  ⟨5, 2, 10, 1, 10, 9, 1, 0, 1, 1, 1, 1⟩

/-! ## Exact-arithmetic behaviour of the compensated accumulator -/

theorem kahanAdd_zero_c (s x : ℚ) : kahanAdd ⟨s, 0⟩ x = ⟨s + x, 0⟩ := by
  simp only [kahanAdd, Kahan.mk.injEq]
  exact ⟨by ring, by ring⟩

theorem foldl_kahanAdd_map {α : Type} (f : α → ℚ) (l : List α) :
    ∀ s : ℚ,
      l.foldl (fun acc x => kahanAdd acc (f x)) ⟨s, 0⟩ = ⟨s + (l.map f).sum, 0⟩ := by
  induction l with
  | nil => intro s; simp
  | cons a l ih =>
    intro s
    simp only [List.foldl_cons, List.map_cons, List.sum_cons, kahanAdd_zero_c]
    rw [ih (s + f a), add_assoc]

theorem pTheta_eq_zipSum (e : Env) (n k : ℕ) (us vs duvs : List ℚ) (theta : ℚ) :
    pTheta e n k us vs duvs theta
      = ((List.zip us (List.zip vs duvs)).map
          (fun x => innerTerm e n k theta x.1 x.2.1 x.2.2)).sum := by
  unfold pTheta
  rw [foldl_kahanAdd_map]
  simp

theorem foldl_gridStep (e : Env) (n k : ℕ) (us vs duvs : List ℚ) (M : ℕ)
    (l : List ℕ) :
    ∀ (acc0 : List ℚ) (s : ℚ),
      l.foldl (gridStep e n k us vs duvs M) (acc0, ⟨s, 0⟩)
        = (acc0 ++ l.map (gridVal e n k us vs duvs M),
           ⟨s + (l.map (gridVal e n k us vs duvs M)).sum, 0⟩) := by
  induction l with
  | nil => intro acc0 s; simp
  | cons j l ih =>
    intro acc0 s
    have hstep : gridStep e n k us vs duvs M (acc0, ⟨s, 0⟩) j
        = (acc0 ++ [gridVal e n k us vs duvs M j],
           ⟨s + gridVal e n k us vs duvs M j, 0⟩) := by
      simp [gridStep, gridVal, kahanAdd_zero_c]
    simp only [List.foldl_cons, List.map_cons, List.sum_cons, hstep]
    rw [ih]
    simp [add_assoc]

theorem gridPass_fst (e : Env) (n k : ℕ) (us vs duvs : List ℚ) (M : ℕ) :
    (gridPass e n k us vs duvs M).1
      = (List.range (M + 1)).map (gridVal e n k us vs duvs M) := by
  unfold gridPass
  rw [foldl_gridStep]
  simp

theorem gridPass_snd (e : Env) (n k : ℕ) (us vs duvs : List ℚ) (M : ℕ) :
    (gridPass e n k us vs duvs M).2
      = ⟨((List.range (M + 1)).map (gridVal e n k us vs duvs M)).sum, 0⟩ := by
  unfold gridPass
  rw [foldl_gridStep]
  simp

/-- The raw `pdf` array, written as a map over the grid indices. -/
theorem rawPdf_eq (e : Env) (req : Request) (idxs : List ℕ) :
    rawPdf e req idxs
      = (List.range (req.M + 1)).map
          (gridVal e req.n req.k (usOf e idxs) (vsOf e idxs)
            (duvsOf e req.n req.k (usOf e idxs) (vsOf e idxs)) req.M) := by
  show (gridPass e req.n req.k (usOf e idxs) (vsOf e idxs)
    (duvsOf e req.n req.k (usOf e idxs) (vsOf e idxs)) req.M).1 = _
  rw [gridPass_fst]

/-- The compensated `total` equals, in exact arithmetic, the plain sum of
the raw grid values. -/
theorem theTotal_eq_sum (e : Env) (req : Request) (idxs : List ℕ) :
    theTotal e req idxs = (rawPdf e req idxs).sum := by
  rw [rawPdf_eq]
  show (gridPass e req.n req.k (usOf e idxs) (vsOf e idxs)
    (duvsOf e req.n req.k (usOf e idxs) (vsOf e idxs)) req.M).2.s = _
  rw [gridPass_snd]

theorem rawPdf_length (e : Env) (req : Request) (idxs : List ℕ) :
    (rawPdf e req idxs).length = req.M + 1 := by
  rw [rawPdf_eq]
  simp

/-! ## Converting the zipped sample traversal to an indexed sum -/

theorem zip3_map_sum (f : ℚ → ℚ → ℚ → ℚ) (us : List ℚ) :
    ∀ (vs duvs : List ℚ), vs.length = us.length → duvs.length = us.length →
      ((List.zip us (List.zip vs duvs)).map (fun x => f x.1 x.2.1 x.2.2)).sum
        = ∑ i ∈ Finset.range us.length,
            f (us.getD i 0) (vs.getD i 0) (duvs.getD i 0) := by
  induction us with
  | nil => intro vs duvs _ _; simp
  | cons a us ih =>
    intro vs duvs h1 h2
    match vs, duvs with
    | [], _ => simp at h1
    | _ :: _, [] => simp at h2
    | b :: vs, c :: duvs =>
      simp only [List.length_cons] at h1 h2
      simp only [List.zip_cons_cons, List.map_cons, List.sum_cons,
        List.length_cons]
      rw [Finset.sum_range_succ']
      simp only [List.getD_cons_succ, List.getD_cons_zero]
      rw [ih vs duvs (by omega) (by omega)]
      ring

theorem pTheta_eq_sum (e : Env) (n k : ℕ) (us vs duvs : List ℚ) (theta : ℚ)
    (h1 : vs.length = us.length) (h2 : duvs.length = us.length) :
    pTheta e n k us vs duvs theta
      = ∑ i ∈ Finset.range us.length,
          innerTerm e n k theta (us.getD i 0) (vs.getD i 0) (duvs.getD i 0) := by
  rw [pTheta_eq_zipSum]
  exact zip3_map_sum (fun u v d => innerTerm e n k theta u v d) us vs duvs h1 h2

/-! ## The sampling stage -/

theorem findAccept_some (e : Env) :
    ∀ (fuel t j : ℕ), findAccept e t fuel = some j →
      t ≤ j ∧ (e.draws j).1 < (e.draws j).2 := by
  intro fuel
  induction fuel with
  | zero => intro t j h; simp [findAccept] at h
  | succ fuel ih =>
    intro t j h
    by_cases hc : (e.draws t).1 < (e.draws t).2
    · simp [findAccept, hc] at h
      subst h
      exact ⟨le_refl t, hc⟩
    · simp [findAccept, hc] at h
      obtain ⟨h1, h2⟩ := ih (t + 1) j h
      exact ⟨by omega, h2⟩

theorem drawIndices_length (e : Env) (fuel : ℕ) :
    ∀ (N t : ℕ) (l : List ℕ), drawIndices e fuel N t = some l → l.length = N := by
  intro N
  induction N with
  | zero =>
    intro t l h
    simp only [drawIndices, Option.some.injEq] at h
    subst h
    rfl
  | succ N ih =>
    intro t l h
    unfold drawIndices at h
    cases hfa : findAccept e t fuel with
    | none => rw [hfa] at h; simp at h
    | some j =>
      rw [hfa] at h
      simp only [Option.map_eq_some'] at h
      obtain ⟨rest, hrest, hl⟩ := h
      rw [← hl]
      simp [ih (j + 1) rest hrest]

theorem drawIndices_accept (e : Env) (fuel : ℕ) :
    ∀ (N t : ℕ) (l : List ℕ), drawIndices e fuel N t = some l →
      ∀ j ∈ l, (e.draws j).1 < (e.draws j).2 := by
  intro N
  induction N with
  | zero =>
    intro t l h
    simp only [drawIndices, Option.some.injEq] at h
    subst h
    intro j hj
    simp at hj
  | succ N ih =>
    intro t l h
    unfold drawIndices at h
    cases hfa : findAccept e t fuel with
    | none => rw [hfa] at h; simp at h
    | some j =>
      rw [hfa] at h
      simp only [Option.map_eq_some'] at h
      obtain ⟨rest, hrest, hl⟩ := h
      intro j' hj'
      rw [← hl] at hj'
      rcases List.mem_cons.mp hj' with h' | h'
      · subst h'
        exact (findAccept_some e fuel t j' hfa).2
      · exact ih (j + 1) rest hrest j' h'

/-- Each stored pair satisfies the rejection test: the `i`-th entries of
the `us` and `vs` arrays are strictly ordered. -/
theorem sample_getD_lt (e : Env) (fuel N : ℕ) (idxs : List ℕ)
    (hs : drawIndices e fuel N 0 = some idxs) (i : ℕ) (hi : i < N) :
    (usOf e idxs).getD i 0 < (vsOf e idxs).getD i 0 := by
  have hlen : idxs.length = N := drawIndices_length e fuel N 0 idxs hs
  have hi' : i < idxs.length := by omega
  have h1 : (usOf e idxs).getD i 0 = (e.draws (idxs[i])).1 := by
    rw [List.getD_eq_getElem _ _ (by simp [usOf]; omega)]
    simp [usOf]
  have h2 : (vsOf e idxs).getD i 0 = (e.draws (idxs[i])).2 := by
    rw [List.getD_eq_getElem _ _ (by simp [vsOf]; omega)]
    simp [vsOf]
  rw [h1, h2]
  exact drawIndices_accept e fuel N 0 idxs hs (idxs[i]) (List.getElem_mem hi')

/-- Under a strictly monotone regularized incomplete beta, every stored
Jacobian factor is strictly positive. -/
theorem duvs_getD_pos (e : Env) (req : Request) (fuel : ℕ) (idxs : List ℕ)
    (hs : drawIndices e fuel req.N 0 = some idxs)
    (hmono : ∀ a b, StrictMono (fun x => e.ibeta x a b))
    (i : ℕ) (hi : i < req.N) :
    0 < (duvsOf e req.n req.k (usOf e idxs) (vsOf e idxs)).getD i 0 := by
  have hlen : idxs.length = req.N := drawIndices_length e fuel req.N 0 idxs hs
  have hgd : (duvsOf e req.n req.k (usOf e idxs) (vsOf e idxs)).getD i 0
      = duvOf e req.n req.k ((usOf e idxs).getD i 0) ((vsOf e idxs).getD i 0) := by
    rw [List.getD_eq_getElem _ _ (by simp [duvsOf, usOf, vsOf]; omega)]
    rw [List.getD_eq_getElem _ _ (by simp [usOf]; omega),
      List.getD_eq_getElem _ _ (by simp [vsOf]; omega)]
    simp [duvsOf]
  rw [hgd]
  have huv := sample_getD_lt e fuel req.N idxs hs i hi
  simp only [duvOf]
  apply div_pos (by linarith)
  have hm := hmono ((req.n : ℚ) - (req.k : ℚ) + 1) ((req.k : ℚ) + 1)
  have hlt : (1 : ℚ) - (vsOf e idxs).getD i 0 < 1 - (usOf e idxs).getD i 0 := by
    linarith
  have := hm hlt
  simp only at this
  linarith

/-- If some draw at or after position `t + d` is accepted at exactly
`t + d`, then `d + 1` units of fuel suffice for the rejection loop started
at `t`. -/
theorem findAccept_of_accept (e : Env) :
    ∀ (d t : ℕ), (e.draws (t + d)).1 < (e.draws (t + d)).2 →
      (findAccept e t (d + 1)).isSome = true := by
  intro d
  induction d with
  | zero =>
    intro t h
    simp only [Nat.add_zero] at h
    simp [findAccept, if_pos h]
  | succ d ih =>
    intro t h
    by_cases hc : (e.draws t).1 < (e.draws t).2
    · simp [findAccept, if_pos hc]
    · have h' : (e.draws (t + 1 + d)).1 < (e.draws (t + 1 + d)).2 := by
        have : t + 1 + d = t + (d + 1) := by omega
        rw [this]; exact h
      simpa [findAccept, if_neg hc] using ih (t + 1) h'

/-- The rejection loop's answer is stable under giving it more fuel. -/
theorem findAccept_mono (e : Env) :
    ∀ (fuel fuel' t j : ℕ), fuel ≤ fuel' → findAccept e t fuel = some j →
      findAccept e t fuel' = some j := by
  intro fuel
  induction fuel with
  | zero => intro fuel' t j _ h; simp [findAccept] at h
  | succ fuel ih =>
    intro fuel' t j hle h
    obtain ⟨fuel'', rfl⟩ : ∃ f, fuel' = f + 1 := ⟨fuel' - 1, by omega⟩
    simp only [findAccept] at h ⊢
    by_cases hc : (e.draws t).1 < (e.draws t).2
    · rw [if_pos hc] at h ⊢; exact h
    · rw [if_neg hc] at h ⊢
      exact ih fuel'' (t + 1) j (by omega) h

/-- The whole sampling stage is stable under giving it more fuel. -/
theorem drawIndices_mono (e : Env) :
    ∀ (N t fuel fuel' : ℕ) (l : List ℕ), fuel ≤ fuel' →
      drawIndices e fuel N t = some l → drawIndices e fuel' N t = some l := by
  intro N
  induction N with
  | zero => intro t fuel fuel' l _ h; simpa [drawIndices] using h
  | succ N ih =>
    intro t fuel fuel' l hle h
    unfold drawIndices at h ⊢
    cases hfa : findAccept e t fuel with
    | none => rw [hfa] at h; simp at h
    | some j =>
      rw [hfa] at h
      rw [findAccept_mono e fuel fuel' t j hle hfa]
      simp only [Option.map_eq_some'] at h ⊢
      obtain ⟨rest, hrest, hl⟩ := h
      exact ⟨rest, ih (j + 1) fuel fuel' rest hle hrest, hl⟩

/-! ## Normalization algebra -/

theorem sum_map_div (l : List ℚ) (t : ℚ) :
    (l.map (fun x => x / t)).sum = l.sum / t := by
  induction l with
  | nil => simp
  | cons a l ih => simp [ih, add_div]

/-! ## Concrete evaluations of the model, used by the witnesses -/

theorem eval_drawIndices : drawIndices testEnv 1 1 0 = some [0] := by
  norm_num [drawIndices, findAccept, testEnv]

theorem eval_drawIndices0 : drawIndices zeroEnv 1 1 0 = some [0] := by
  norm_num [drawIndices, findAccept, zeroEnv]

theorem eval_total : theTotal testEnv testReq [0] = 2 := by
  norm_num [theTotal, gridPass, gridStep, pTheta, innerTerm, kahanAdd,
    duvsOf, duvOf, usOf, vsOf, testEnv, testReq, List.range_succ]

theorem eval_total0 : theTotal zeroEnv testReq [0] = 0 := by
  norm_num [theTotal, gridPass, gridStep, pTheta, innerTerm, kahanAdd,
    duvsOf, duvOf, usOf, vsOf, zeroEnv, testReq, List.range_succ]

theorem eval_posterior : posterior testEnv testReq 1 = some [1, 1] := by
  norm_num [posterior, posteriorCore, normalize, rawPdf, theTotal, gridPass,
    gridStep, pTheta, innerTerm, kahanAdd, duvsOf, duvOf, usOf, vsOf,
    drawIndices, findAccept, testEnv, testReq, List.range_succ]

theorem eval_posteriorM0 : posterior testEnv testReqM0 1 = some [1] := by
  norm_num [posterior, posteriorCore, normalize, rawPdf, theTotal, gridPass,
    gridStep, pTheta, innerTerm, kahanAdd, duvsOf, duvOf, usOf, vsOf,
    drawIndices, findAccept, testEnv, testReqM0, List.range_succ]

/-! ## The claims -/

/-- Claim C1: for every valid, well-posed request (positive grid
resolution, nonzero accumulated total, terminating sampling), the array
returned by `posterior` is normalized so that the sum of its entries
divided by `M + 1` equals `1` exactly — `total` is divided by the output
length `M + 1` and every entry is divided in place by that quotient. -/
theorem claim_C1_normalized (e : Env) (req : Request) (fuel : ℕ) (idxs : List ℕ)
    (hM : 0 < req.M)
    (hs : drawIndices e fuel req.N 0 = some idxs)
    (ht : theTotal e req idxs ≠ 0) :
    ∃ pdf, posterior e req fuel = some pdf
      ∧ pdf.sum / ((req.M : ℚ) + 1) = 1 := by
  refine ⟨posteriorCore e req idxs, by simp [posterior, hs], ?_⟩
  have hlen : (((rawPdf e req idxs).length : ℕ) : ℚ) = (req.M : ℚ) + 1 := by
    rw [rawPdf_length]
    push_cast
    ring
  have hM1 : ((req.M : ℚ) + 1) ≠ 0 := by positivity
  simp only [posteriorCore, normalize]
  rw [sum_map_div, ← theTotal_eq_sum, hlen]
  field_simp

/-- Witness for C1 at a concrete request and environment. -/
theorem claim_C1_witness :
    ∃ pdf, posterior testEnv testReq 1 = some pdf
      ∧ pdf.sum / ((testReq.M : ℚ) + 1) = 1 :=
  claim_C1_normalized testEnv testReq 1 [0] (by decide) eval_drawIndices
    (by rw [eval_total]; norm_num)

/-- Claim C2: every sample retained by the rejection loop is strictly
ordered — for every sample index `i < N` the stored pair satisfies
`us[i] < vs[i]`, with `0 ≤ us[i]` and `vs[i] ≤ 1` whenever the Beta
sampler's outputs lie in `[0, 1]`. -/
theorem claim_C2_sampling_invariant (e : Env) (fuel N : ℕ) (idxs : List ℕ)
    (hs : drawIndices e fuel N 0 = some idxs)
    (hrange : ∀ t, 0 ≤ (e.draws t).1 ∧ (e.draws t).2 ≤ 1) :
    ∀ i < N, 0 ≤ (usOf e idxs).getD i 0
      ∧ (usOf e idxs).getD i 0 < (vsOf e idxs).getD i 0
      ∧ (vsOf e idxs).getD i 0 ≤ 1 := by
  intro i hi
  have hlen : idxs.length = N := drawIndices_length e fuel N 0 idxs hs
  have hi' : i < idxs.length := by omega
  have h1 : (usOf e idxs).getD i 0 = (e.draws (idxs[i])).1 := by
    rw [List.getD_eq_getElem _ _ (by simp [usOf]; omega)]
    simp [usOf]
  have h2 : (vsOf e idxs).getD i 0 = (e.draws (idxs[i])).2 := by
    rw [List.getD_eq_getElem _ _ (by simp [vsOf]; omega)]
    simp [vsOf]
  refine ⟨?_, sample_getD_lt e fuel N idxs hs i hi, ?_⟩
  · rw [h1]; exact (hrange _).1
  · rw [h2]; exact (hrange _).2

/-- Witness for C2 on the concrete environment. -/
theorem claim_C2_witness :
    drawIndices testEnv 1 1 0 = some [0]
      ∧ 0 ≤ (usOf testEnv [0]).getD 0 0
      ∧ (usOf testEnv [0]).getD 0 0 < (vsOf testEnv [0]).getD 0 0
      ∧ (vsOf testEnv [0]).getD 0 0 ≤ 1 := by
  have hs : drawIndices testEnv 1 1 0 = some [0] := eval_drawIndices
  exact ⟨hs, claim_C2_sampling_invariant testEnv 1 1 [0] hs
    (fun t => ⟨by norm_num [testEnv], by norm_num [testEnv]⟩) 0 (by omega)⟩

/-- Claim C3: for every grid index `j ≤ M` the raw, pre-normalization
value stored at `pdf[j]` is the compensated — in exact arithmetic, plain
— sum over samples `i < N` of `betaPdf(uᵢ + (j/M)·(vᵢ - uᵢ); k+1, n-k+1)
· duvᵢ`, with no division by `N`; and the running `total`, accumulated by
the same compensated technique, equals the sum of the raw grid values. -/
theorem claim_C3_raw_density (e : Env) (req : Request) (fuel : ℕ)
    (idxs : List ℕ)
    (hM : 0 < req.M)
    (hs : drawIndices e fuel req.N 0 = some idxs) :
    (∀ j ≤ req.M,
      (rawPdf e req idxs).getD j 0
        = ∑ i ∈ Finset.range req.N,
            e.betaPdf
              ((usOf e idxs).getD i 0
                + ((j : ℚ) / (req.M : ℚ))
                  * ((vsOf e idxs).getD i 0 - (usOf e idxs).getD i 0))
              ((req.k : ℚ) + 1) ((req.n : ℚ) - (req.k : ℚ) + 1)
            * (duvsOf e req.n req.k (usOf e idxs) (vsOf e idxs)).getD i 0)
      ∧ theTotal e req idxs = (rawPdf e req idxs).sum := by
  have hlen : idxs.length = req.N := drawIndices_length e fuel req.N 0 idxs hs
  constructor
  · intro j hj
    have hus : (usOf e idxs).length = req.N := by simp [usOf, hlen]
    have hvs : (vsOf e idxs).length = (usOf e idxs).length := by
      simp [usOf, vsOf]
    have hduvs : (duvsOf e req.n req.k (usOf e idxs) (vsOf e idxs)).length
        = (usOf e idxs).length := by
      simp [duvsOf, usOf, vsOf]
    rw [rawPdf_eq]
    rw [List.getD_eq_getElem _ _ (by simpa using Nat.lt_succ_of_le hj)]
    simp only [List.getElem_map, List.getElem_range]
    simp only [gridVal]
    rw [pTheta_eq_sum e req.n req.k _ _ _ _ hvs hduvs, hus]
    simp only [innerTerm]
  · exact theTotal_eq_sum e req idxs

/-- Witness for C3: the concrete raw grid value and total. -/
theorem claim_C3_witness :
    0 < testReq.M
      ∧ (rawPdf testEnv testReq [0]).getD 0 0
          = ∑ i ∈ Finset.range testReq.N,
              testEnv.betaPdf
                ((usOf testEnv [0]).getD i 0
                  + (((0 : ℕ) : ℚ) / (testReq.M : ℚ))
                    * ((vsOf testEnv [0]).getD i 0 - (usOf testEnv [0]).getD i 0))
                ((testReq.k : ℚ) + 1) ((testReq.n : ℚ) - (testReq.k : ℚ) + 1)
              * (duvsOf testEnv testReq.n testReq.k (usOf testEnv [0])
                  (vsOf testEnv [0])).getD i 0
      ∧ theTotal testEnv testReq [0] = (rawPdf testEnv testReq [0]).sum := by
  have h := claim_C3_raw_density testEnv testReq 1 [0] (by decide) eval_drawIndices
  exact ⟨by decide, h.1 0 (by omega), h.2⟩

/-- Claim C4: the Jacobian factor `duv = (v-u)/(Bu - Bv)` computed with
complemented arguments `Bu = I(1-u; n-k+1, k+1)`, `Bv = I(1-v; n-k+1,
k+1)` equals, in exact arithmetic and under the symmetry identity
`I_x(a,b) = 1 - I_{1-x}(b,a)`, the direct form
`(v - u) / (I_v(k+1, n-k+1) - I_u(k+1, n-k+1))`. -/
theorem claim_C4_duv_complement (e : Env) (n k : ℕ) (u v : ℚ)
    (hsym : ∀ x a b, e.ibeta x a b = 1 - e.ibeta (1 - x) b a) :
    duvOf e n k u v
      = (v - u) /
        (e.ibeta v ((k : ℚ) + 1) ((n : ℚ) - (k : ℚ) + 1)
          - e.ibeta u ((k : ℚ) + 1) ((n : ℚ) - (k : ℚ) + 1)) := by
  simp only [duvOf]
  rw [hsym v ((k : ℚ) + 1) ((n : ℚ) - (k : ℚ) + 1),
      hsym u ((k : ℚ) + 1) ((n : ℚ) - (k : ℚ) + 1)]
  congr 1
  ring

/-- Witness for C4 on a concrete incomplete beta satisfying the symmetry
identity. -/
theorem claim_C4_witness :
    duvOf testEnv 5 2 (1/4) (1/2)
      = ((1/2 : ℚ) - 1/4) /
        (testEnv.ibeta (1/2) (((2 : ℕ) : ℚ) + 1) (((5 : ℕ) : ℚ) - ((2 : ℕ) : ℚ) + 1)
          - testEnv.ibeta (1/4) (((2 : ℕ) : ℚ) + 1)
              (((5 : ℕ) : ℚ) - ((2 : ℕ) : ℚ) + 1)) :=
  claim_C4_duv_complement testEnv 5 2 (1/4) (1/2)
    (fun x a b => by show x = 1 - (1 - x); ring)

/-- Claim C5: for a valid, well-posed request — nonnegative beta pdf,
strictly monotone regularized incomplete beta (so `u < v` gives
`Bu - Bv > 0`, hence `duv > 0`), positive accumulated total — every entry
of the array returned by `posterior` is nonnegative. -/
theorem claim_C5_nonneg (e : Env) (req : Request) (fuel : ℕ) (idxs : List ℕ)
    (pdf : List ℚ)
    (hM : 0 < req.M)
    (hs : drawIndices e fuel req.N 0 = some idxs)
    (hpdfnn : ∀ x a b, 0 ≤ e.betaPdf x a b)
    (hmono : ∀ a b, StrictMono (fun x => e.ibeta x a b))
    (ht : 0 < theTotal e req idxs)
    (hp : posterior e req fuel = some pdf) :
    ∀ x ∈ pdf, 0 ≤ x := by
  have hcore : posteriorCore e req idxs = pdf := by
    simp only [posterior, hs, Option.map_some', Option.some.injEq] at hp
    exact hp
  subst hcore
  intro x hx
  simp only [posteriorCore, normalize, List.mem_map] at hx
  obtain ⟨r, hr, rfl⟩ := hx
  have hT1 : (0 : ℚ) < theTotal e req idxs / (((rawPdf e req idxs).length : ℕ) : ℚ) := by
    apply div_pos ht
    rw [rawPdf_length]
    positivity
  apply div_nonneg _ (le_of_lt hT1)
  rw [rawPdf_eq] at hr
  simp only [List.mem_map, List.mem_range] at hr
  obtain ⟨j, hj, rfl⟩ := hr
  have hlen : idxs.length = req.N := drawIndices_length e fuel req.N 0 idxs hs
  have hus : (usOf e idxs).length = req.N := by simp [usOf, hlen]
  have hvs : (vsOf e idxs).length = (usOf e idxs).length := by simp [usOf, vsOf]
  have hduvs : (duvsOf e req.n req.k (usOf e idxs) (vsOf e idxs)).length
      = (usOf e idxs).length := by simp [duvsOf, usOf, vsOf]
  simp only [gridVal]
  rw [pTheta_eq_sum e req.n req.k _ _ _ _ hvs hduvs, hus]
  apply Finset.sum_nonneg
  intro i hi
  simp only [Finset.mem_range] at hi
  simp only [innerTerm]
  exact mul_nonneg (hpdfnn _ _ _)
    (le_of_lt (duvs_getD_pos e req fuel idxs hs hmono i hi))

/-- Witness for C5: the concrete run returns `[1, 1]`, and the theorem
certifies the entry `1` nonnegative. -/
theorem claim_C5_witness :
    posterior testEnv testReq 1 = some [1, 1] ∧ (0 : ℚ) ≤ 1 := by
  have hp : posterior testEnv testReq 1 = some [1, 1] := eval_posterior
  refine ⟨hp, ?_⟩
  exact claim_C5_nonneg testEnv testReq 1 [0] [1, 1] (by decide) eval_drawIndices
    (fun _ _ _ => zero_le_one) (fun _ _ => fun _ _ h => h)
    (by rw [eval_total]; norm_num) hp 1 (by simp)

/-- Claim C6: when the accumulated normalization total is zero the
reference surfaces no distinguishable error — `posterior` still returns
an array — and the normalization step divides by zero, so under the JS
float semantics every returned entry is non-finite (`normalizeNaN` marks
all `M + 1` entries `none`). -/
theorem claim_C6_zero_total_silent (e : Env) (req : Request) (fuel : ℕ)
    (idxs : List ℕ)
    (hs : drawIndices e fuel req.N 0 = some idxs)
    (ht : theTotal e req idxs = 0) :
    (posterior e req fuel).isSome = true
      ∧ normalizeNaN (rawPdf e req idxs) (theTotal e req idxs)
          = List.replicate (req.M + 1) none := by
  constructor
  · simp [posterior, hs]
  · simp only [normalizeNaN]
    rw [ht]
    have hlen := rawPdf_length e req idxs
    simp [← hlen, List.map_const']

/-- Witness for C6 on the zero-density environment. -/
theorem claim_C6_witness :
    (posterior zeroEnv testReq 1).isSome = true
      ∧ normalizeNaN (rawPdf zeroEnv testReq [0]) (theTotal zeroEnv testReq [0])
          = List.replicate (testReq.M + 1) none :=
  claim_C6_zero_total_silent zeroEnv testReq 1 [0] eval_drawIndices0 eval_total0

/-- Claim C7: the rejection-sampling loop has no iteration cap — started
at stream position `t` it terminates under some fuel bound exactly when
the random source eventually yields a pair with `u < v` at or after `t`;
and when the source always eventually yields such a pair, the whole
`N`-sample stage terminates for every `N`, never failing with a
sampling-exhausted condition. -/
theorem claim_C7_termination (e : Env) :
    (∀ t, (∃ fuel, (findAccept e t fuel).isSome = true)
        ↔ ∃ j, t ≤ j ∧ (e.draws j).1 < (e.draws j).2)
      ∧ (∀ N t, (∀ s, ∃ j, s ≤ j ∧ (e.draws j).1 < (e.draws j).2) →
          ∃ fuel, (drawIndices e fuel N t).isSome = true) := by
  constructor
  · intro t
    constructor
    · rintro ⟨fuel, hf⟩
      obtain ⟨j, hj⟩ := Option.isSome_iff_exists.mp hf
      obtain ⟨h1, h2⟩ := findAccept_some e fuel t j hj
      exact ⟨j, h1, h2⟩
    · rintro ⟨j, hj, hacc⟩
      refine ⟨(j - t) + 1, ?_⟩
      apply findAccept_of_accept
      have hjt : t + (j - t) = j := by omega
      rw [hjt]
      exact hacc
  · intro N
    induction N with
    | zero => intro t _; exact ⟨0, rfl⟩
    | succ N ih =>
      intro t hH
      obtain ⟨j, hj, hacc⟩ := hH t
      have h1 : (findAccept e t ((j - t) + 1)).isSome = true := by
        apply findAccept_of_accept
        have hjt : t + (j - t) = j := by omega
        rw [hjt]
        exact hacc
      obtain ⟨j1, hj1⟩ := Option.isSome_iff_exists.mp h1
      obtain ⟨fuel2, hf2⟩ := ih (j1 + 1) hH
      obtain ⟨l2, hl2⟩ := Option.isSome_iff_exists.mp hf2
      refine ⟨max ((j - t) + 1) fuel2, ?_⟩
      have hfa : findAccept e t (max ((j - t) + 1) fuel2) = some j1 :=
        findAccept_mono e ((j - t) + 1) _ t j1 (le_max_left _ _) hj1
      have hdi : drawIndices e (max ((j - t) + 1) fuel2) N (j1 + 1) = some l2 :=
        drawIndices_mono e N (j1 + 1) fuel2 _ l2 (le_max_right _ _) hl2
      unfold drawIndices
      rw [hfa]
      simp [hdi]

/-- Witness for C7: on the concrete environment the loop terminates. -/
theorem claim_C7_witness :
    ∃ fuel, (findAccept testEnv 0 fuel).isSome = true :=
  ((claim_C7_termination testEnv).1 0).mpr ⟨0, le_refl 0, by norm_num [testEnv]⟩

/-- Claim C8: whenever `posterior` returns (for every `N`, every `M`
including `0` and `1`), the returned array has length exactly `M + 1`. -/
theorem claim_C8_length (e : Env) (req : Request) (fuel : ℕ) (pdf : List ℚ)
    (hp : posterior e req fuel = some pdf) : pdf.length = req.M + 1 := by
  unfold posterior at hp
  obtain ⟨idxs, _, hl⟩ := Option.map_eq_some'.mp hp
  rw [← hl]
  simp only [posteriorCore, normalize, List.length_map]
  exact rawPdf_length e req idxs

/-- Witness for C8, exercising the `M = 0` edge case. -/
theorem claim_C8_witness :
    posterior testEnv testReqM0 1 = some [1]
      ∧ ([1] : List ℚ).length = testReqM0.M + 1 := by
  have hp : posterior testEnv testReqM0 1 = some [1] := eval_posteriorM0
  exact ⟨hp, claim_C8_length testEnv testReqM0 1 [1] hp⟩

/-- Claim C9: `posterior` is deterministic given its random source — two
calls with identical inputs that consume an identical stream of draws
(and the same beta pdf and incomplete beta collaborators) return
identical arrays. -/
theorem claim_C9_deterministic (d1 d2 : ℕ → ℚ × ℚ) (bp ib : ℚ → ℚ → ℚ → ℚ)
    (req : Request) (fuel : ℕ) (h : ∀ t, d1 t = d2 t) :
    posterior ⟨d1, bp, ib⟩ req fuel = posterior ⟨d2, bp, ib⟩ req fuel := by
  have hd : d1 = d2 := funext h
  rw [hd]

/-- Witness for C9: two syntactically different but equal streams. -/
theorem claim_C9_witness :
    posterior ⟨fun _ => (1/4, 1/2), fun _ _ _ => 1, fun x _ _ => x⟩ testReq 1
      = posterior ⟨fun _ => (2/8, 2/4), fun _ _ _ => 1, fun x _ _ => x⟩ testReq 1 :=
  claim_C9_deterministic _ _ _ _ testReq 1 (fun t => by norm_num [Prod.ext_iff])

/-- Claim C10: at `M = 0` the single grid value `theta` is the unguarded
division `0/0`; the guarded embedding `posteriorGuard` characterizes that
error branch, returning the non-finite marker `none` exactly when
`M = 0`, and agreeing with the unguarded model `posterior` whenever
`0 < M`. -/
theorem claim_C10_M0_guard (e : Env) (req : Request) (fuel : ℕ) (idxs : List ℕ)
    (hs : drawIndices e fuel req.N 0 = some idxs) :
    (req.M = 0 → posteriorGuard e req fuel = some none)
      ∧ (0 < req.M →
          posteriorGuard e req fuel = some (some (posteriorCore e req idxs))
            ∧ posterior e req fuel = some (posteriorCore e req idxs)) := by
  constructor
  · intro h0
    simp [posteriorGuard, hs, h0]
  · intro hM
    have hne : req.M ≠ 0 := by omega
    constructor
    · simp [posteriorGuard, hs, hne]
    · simp [posterior, hs]

/-- Witness for C10: the guarded model flags the `M = 0` request. -/
theorem claim_C10_witness :
    posteriorGuard testEnv testReqM0 1 = some none :=
  (claim_C10_M0_guard testEnv testReqM0 1 [0] eval_drawIndices).1 rfl

end Prevalence
